import Mathlib

set_option maxRecDepth 8000

/-!
Verification of the digest engine of ldns-zone-digest.

The development shallowly embeds `src/ldns-zone-digest.c`.  Resource
records are modelled as owner labels plus a list of rdata fields, each a
byte (`Nat` below 256) list, mirroring the ldns `ldns_rr` structure
(owner `ldns_rdf`, type, class, ttl, rdf list).  The external ldns
routines (wire encoding, canonical comparison, zone loading) are modelled
from the contracts stated in the specification; the OpenSSL SHA-384
digest is implemented from FIPS 180-4 with the standard hardcoded round
constants and initial hash values.  All definitions are executable so
that concrete zones can be evaluated inside proofs.
-/

/-! ## Bytes and integers -/

/-- Big-endian 16-bit encoding (`ldns_write_uint16`). -/
def be16 (x : Nat) : List Nat := [x / 2 ^ 8 % 256, x % 256]

/-- Big-endian 32-bit encoding (`ldns_write_uint32`). -/
def be32 (x : Nat) : List Nat :=
  [x / 2 ^ 24 % 256, x / 2 ^ 16 % 256, x / 2 ^ 8 % 256, x % 256]

/-- Big-endian 16-bit read (`ldns_read_uint16` / `ldns_rdf2native_int16`). -/
def rd16 (bs : List Nat) : Nat := bs.getD 0 0 * 2 ^ 8 + bs.getD 1 0

/-- Big-endian 32-bit read (`ldns_read_uint32` / `ldns_rdf2native_int32`). -/
def rd32 (bs : List Nat) : Nat :=
  bs.getD 0 0 * 2 ^ 24 + bs.getD 1 0 * 2 ^ 16 + bs.getD 2 0 * 2 ^ 8 + bs.getD 3 0

/-! ## DNS names

A name is a list of labels, each label a list of bytes.  ldns compares
dnames case-insensitively label by label; the canonical form lowercases
ASCII letters.  The canonical label list is kept reversed so that the
DNS canonical ordering (compare from the rightmost label) and the
subdomain test become plain lexicographic prefix operations. -/

/-- Lowercase one ASCII byte, as DNS-insensitive comparison does. -/
def lowerByte (b : Nat) : Nat := if 65 ≤ b ∧ b ≤ 90 then b + 32 else b

/-- Canonical comparison form of a name: labels lowercased and reversed
(rightmost label first), the form in which `ldns_dname_compare` compares. -/
def canonLabels (n : List (List Nat)) : List (List Nat) :=
  (n.map (List.map lowerByte)).reverse

/-- Model of `ldns_dname_is_subdomain`: strictly more labels and the
parent's labels are a (case-insensitive) suffix, i.e. a prefix of the
reversed canonical forms. -/
def ldns_dname_is_subdomain (sub par : List (List Nat)) : Bool :=
  decide ((canonLabels par).isPrefixOf (canonLabels sub) ∧
          (canonLabels par).length < (canonLabels sub).length)

/-- Uncompressed wire form of a name: each label length-prefixed, then the
root label, as `ldns_rr2wire` emits owner names in the answer section. -/
def nameWire (n : List (List Nat)) : List Nat :=
  (n.map (fun l => l.length :: l)).flatten ++ [0]

/-- Printable form of an absolute name as `ldns_rdf2str` returns it for the
plain ASCII labels used here: every label followed by a dot (byte 46), and
just a dot for the root name.  This string routes records into the tree. -/
def nameStr (n : List (List Nat)) : List Nat :=
  if n = [] then [46] else (n.map (fun l => l ++ [46])).flatten

/-! ## Resource records -/

/-- A resource record as the program sees it through ldns: owner name,
type code, class, TTL and the list of rdata fields, each already in wire
form (names in rdata are stored uncompressed). -/
structure RR where
  owner : List (List Nat)
  rtype : Nat
  rclass : Nat
  ttl : Nat
  rdfs : List (List Nat)
deriving DecidableEq, Repr

/-- The ZONEMD RR type code (63), `ZONEMD_RR_TYPE` in the source. -/
def ZONEMD_RR_TYPE : Nat := 63

/-- The RRSIG RR type code, `LDNS_RR_TYPE_RRSIG`. -/
def RRSIG_TYPE : Nat := 46

/-- Concatenated wire rdata of a record. -/
def rdataWire (rr : RR) : List Nat := rr.rdfs.flatten

/-- Model of `ldns_rr2wire(.., LDNS_SECTION_ANSWER, ..)`: owner name wire,
type, class, TTL, rdata length, rdata. -/
def ldns_rr2wire (rr : RR) : List Nat :=
  nameWire rr.owner ++ be16 rr.rtype ++ be16 rr.rclass ++ be32 rr.ttl ++
    be16 (rdataWire rr).length ++ rdataWire rr

/-- Model of `my_typecovered`: `ldns_rr_rrsig_typecovered` returns the
first rdata field of the RRSIG, a 16-bit type code; for every
ldns-parsed RRSIG that field is exactly the first two bytes of the wire
rdata, which is how it is read here. -/
def my_typecovered (rr : RR) : Nat := rd16 (rdataWire rr)

/-! ## SHA-384 (FIPS 180-4), the digest behind `zonemd_digester(1)` -/

/-- 64-bit truncation. -/
def mask64 (x : Nat) : Nat := x % 2 ^ 64

/-- Right rotation of a 64-bit word by `k` (0 < k < 64). -/
def rotr64 (k x : Nat) : Nat := (x >>> k) ||| ((x <<< (64 - k)) % 2 ^ 64)

/-- Bitwise complement of a 64-bit word. -/
def not64 (x : Nat) : Nat := x ^^^ (2 ^ 64 - 1)

/-- SHA-512 Ch function. -/
def shaCh (e f g : Nat) : Nat := (e &&& f) ^^^ (not64 e &&& g)

/-- SHA-512 Maj function. -/
def shaMaj (a b c : Nat) : Nat := (a &&& b) ^^^ (a &&& c) ^^^ (b &&& c)

/-- SHA-512 big Sigma0. -/
def bigSigma0 (x : Nat) : Nat := rotr64 28 x ^^^ rotr64 34 x ^^^ rotr64 39 x

/-- SHA-512 big Sigma1. -/
def bigSigma1 (x : Nat) : Nat := rotr64 14 x ^^^ rotr64 18 x ^^^ rotr64 41 x

/-- SHA-512 small sigma0. -/
def smallSigma0 (x : Nat) : Nat := rotr64 1 x ^^^ rotr64 8 x ^^^ (x >>> 7)

/-- SHA-512 small sigma1. -/
def smallSigma1 (x : Nat) : Nat := rotr64 19 x ^^^ rotr64 61 x ^^^ (x >>> 6)

/-- SHA-384 initial hash values (FIPS 180-4 section 5.3.4, the fractional
square roots of the 9th through 16th primes, hardcoded in OpenSSL's
`sha512.c`; written in decimal, e.g. the first is 0xcbbb9d5dc1059ed8). -/
def sha384IV : List Nat :=
  [14680500436340154072, 7105036623409894663, 10473403895298186519, 1526699215303891257,
   7436329637833083697, 10282925794625328401, 15784041429090275239, 5167115440072839076]

/-- SHA-512/384 round constants (FIPS 180-4 section 4.2.3, the fractional
cube roots of the first eighty primes, hardcoded in OpenSSL's `sha512.c`;
written in decimal, e.g. the first is 0x428a2f98d728ae22). -/
def K512 : List Nat :=
  [4794697086780616226, 8158064640168781261, 13096744586834688815, 16840607885511220156,
   4131703408338449720, 6480981068601479193, 10538285296894168987, 12329834152419229976,
   15566598209576043074, 1334009975649890238, 2608012711638119052, 6128411473006802146,
   8268148722764581231, 9286055187155687089, 11230858885718282805, 13951009754708518548,
   16472876342353939154, 17275323862435702243, 1135362057144423861, 2597628984639134821,
   3308224258029322869, 5365058923640841347, 6679025012923562964, 8573033837759648693,
   10970295158949994411, 12119686244451234320, 12683024718118986047, 13788192230050041572,
   14330467153632333762, 15395433587784984357, 489312712824947311, 1452737877330783856,
   2861767655752347644, 3322285676063803686, 5560940570517711597, 5996557281743188959,
   7280758554555802590, 8532644243296465576, 9350256976987008742, 10552545826968843579,
   11727347734174303076, 12113106623233404929, 14000437183269869457, 14369950271660146224,
   15101387698204529176, 15463397548674623760, 17586052441742319658, 1182934255886127544,
   1847814050463011016, 2177327727835720531, 2830643537854262169, 3796741975233480872,
   4115178125766777443, 5681478168544905931, 6601373596472566643, 7507060721942968483,
   8399075790359081724, 8693463985226723168, 9568029438360202098, 10144078919501101548,
   10430055236837252648, 11840083180663258601, 13761210420658862357, 14299343276471374635,
   14566680578165727644, 15097957966210449927, 16922976911328602910, 17689382322260857208,
   500013540394364858, 748580250866718886, 1242879168328830382, 1977374033974150939,
   2944078676154940804, 3659926193048069267, 4368137639120453308, 4836135668995329356,
   5532061633213252278, 6448918945643986474, 6902733635092675308, 7801388544844847127]

/-- Big-endian 64-bit word from (up to) 8 bytes. -/
def bytesToWord (bs : List Nat) : Nat := bs.foldl (fun a b => a * 256 + b) 0

/-- Big-endian bytes of a 64-bit word. -/
def wordToBytes8 (w : Nat) : List Nat :=
  [w / 2 ^ 56 % 256, w / 2 ^ 48 % 256, w / 2 ^ 40 % 256, w / 2 ^ 32 % 256,
   w / 2 ^ 24 % 256, w / 2 ^ 16 % 256, w / 2 ^ 8 % 256, w % 256]

/-- Fuel-driven chunking (structural recursion, kernel-reducible). -/
def chunksGo (n : Nat) : Nat → List α → List (List α)
  | 0, _ => []
  | _, [] => []
  | fuel + 1, l => l.take n :: chunksGo n fuel (l.drop n)

/-- Split a list into chunks of `n` elements. -/
def chunks (n : Nat) (l : List α) : List (List α) := chunksGo n l.length l

/-- Extend a 16-word block to the 80-word message schedule (`fuel` more
words appended). -/
def schedExtend : Nat → List Nat → List Nat
  | 0, w => w
  | f + 1, w =>
    let t := w.length
    let x := mask64 (smallSigma1 (w.getD (t - 2) 0) + w.getD (t - 7) 0 +
                     smallSigma0 (w.getD (t - 15) 0) + w.getD (t - 16) 0)
    schedExtend f (w ++ [x])

/-- One SHA-512 round on the eight working variables. -/
def sha512Round (st : List Nat) (kw : Nat × Nat) : List Nat :=
  match st with
  | [a, b, c, d, e, f, g, h] =>
    let t1 := mask64 (h + bigSigma1 e + shaCh e f g + kw.1 + kw.2)
    let t2 := mask64 (bigSigma0 a + shaMaj a b c)
    [mask64 (t1 + t2), a, b, c, mask64 (d + t1), e, f, g]
  | other => other

/-- SHA-512 compression of one 16-word block into the hash state. -/
def sha512Block (H : List Nat) (block : List Nat) : List Nat :=
  let sched := schedExtend 64 block
  let st := (K512.zip sched).foldl sha512Round H
  (H.zip st).map (fun p => mask64 (p.1 + p.2))

/-- SHA-384 of a byte list: pad, compress each 128-byte block, output the
first six 64-bit words (48 bytes).  This is the digest the program
obtains from OpenSSL for ZONEMD digest type 1. -/
def sha384 (msg : List Nat) : List Nat :=
  let len := msg.length
  let padZeros := (128 + 112 - (len + 1) % 128) % 128
  let bitLen := 8 * len
  let padded := msg ++ [128] ++ List.replicate padZeros 0 ++
    wordToBytes8 (bitLen / 2 ^ 64) ++ wordToBytes8 (bitLen % 2 ^ 64)
  let blocks := chunks 16 ((chunks 8 padded).map bytesToWord)
  let final := blocks.foldl sha512Block sha384IV
  ((final.take 6).map wordToBytes8).flatten

/-! ## Canonical record comparison

The specification (section 4.1) fixes the contract of `ldns_rr_compare`
as used by `ldns_rr_list_sort`: canonical owner name, then type, then
class, then a byte-wise comparison of the wire rdata; `ldns_rr_compare`
additionally distinguishes records whose TTLs differ (the wire form it
compares contains the TTL), so the TTL takes part in the key.  Two
records compare `eq` exactly when these key components coincide. -/

/-- Three-way comparison on `Nat`. -/
def cmpNat (a b : Nat) : Ordering :=
  if a < b then .lt else if b < a then .gt else .eq

/-- Lexicographic comparison of lists from a base comparison. -/
def lexCmp (c : α → α → Ordering) : List α → List α → Ordering
  | [], [] => .eq
  | [], _ :: _ => .lt
  | _ :: _, [] => .gt
  | a :: as, b :: bs =>
    match c a b with
    | .eq => lexCmp c as bs
    | o => o

/-- Byte-string comparison. -/
def cmpBytes : List Nat → List Nat → Ordering := lexCmp cmpNat

/-- Comparison of canonical label lists. -/
def cmpLabels : List (List Nat) → List (List Nat) → Ordering := lexCmp cmpBytes

/-- Pair comparison, first component first. -/
def prodCmp (ca : α → α → Ordering) (cb : β → β → Ordering) :
    α × β → α × β → Ordering
  | (a1, b1), (a2, b2) =>
    match ca a1 a2 with
    | .eq => cb b1 b2
    | o => o

/-- The comparison key of a record. -/
def rrKey (rr : RR) : List (List Nat) × Nat × Nat × Nat × List Nat :=
  (canonLabels rr.owner, rr.rtype, rr.rclass, rr.ttl, rdataWire rr)

/-- Comparison on record keys. -/
def keyCmp : (List (List Nat) × Nat × Nat × Nat × List Nat) →
    (List (List Nat) × Nat × Nat × Nat × List Nat) → Ordering :=
  prodCmp cmpLabels (prodCmp cmpNat (prodCmp cmpNat (prodCmp cmpNat cmpBytes)))

/-- Model of `ldns_rr_compare`, the order used by `ldns_rr_list_sort` and
the equality used for duplicate suppression. -/
def rrCmp (a b : RR) : Ordering := keyCmp (rrKey a) (rrKey b)

/-- Non-strict comparison. -/
def rrLE (a b : RR) : Prop := rrCmp a b ≠ .gt

instance : DecidablePred fun p : RR × RR => rrLE p.1 p.2 := fun _ => by
  unfold rrLE; infer_instance

instance (a b : RR) : Decidable (rrLE a b) := by unfold rrLE; infer_instance

/-- Insertion into a sorted list: the new record goes before the first
record it does not exceed. -/
def rrInsert (x : RR) : List RR → List RR
  | [] => [x]
  | y :: ys =>
    match rrCmp x y with
    | .gt => y :: rrInsert x ys
    | _ => x :: y :: ys

/-- Model of `ldns_rr_list_sort`: a sort by `rrCmp` (realised as a stable
insertion sort; the C qsort is only specified up to the comparator). -/
def rrSort : List RR → List RR
  | [] => []
  | x :: xs => rrInsert x (rrSort xs)

/-! ## ZONEMD rdata codec

The program stores ZONEMD rdata in the single-blob layout that
`zonemd_rr_pack` produces when ldns does not know the type: serial
(32-bit big endian), digest type, reserved parameter (always 0 on write),
digest bytes.  The specification requires the structured layout to hash
identically, so the blob form is the faithful wire model. -/

/-- The ZONEMD rdata blob (the first — only — rdata field). -/
def zonemdBlob (rr : RR) : List Nat := rr.rdfs.getD 0 []

/-- Stored digest type, byte 4 of the blob (`zonemd_rr_unpack`). -/
def zonemdDigestType (rr : RR) : Nat := (zonemdBlob rr).getD 4 0

/-- Stored digest bytes: everything after serial, type and parameter,
capped at `EVP_MAX_MD_SIZE` = 64 as `zonemd_rr_unpack` caps its copy. -/
def zonemdStoredDigest (rr : RR) : List Nat := ((zonemdBlob rr).drop 6).take 64

/-- Model of `zonemd_digester`: digest type 1 is SHA-384 (size 48), every
other type is unsupported (`NULL`). -/
def zonemd_digester (t : Nat) : Option Nat := if t = 1 then some 48 else none

/-- Model of `zonemd_rr_pack` (blob branch): replace the rdata with
serial, digest type, zero parameter, digest bytes. -/
def zonemd_rr_pack (rr : RR) (serial : Nat) (dtype : Nat) (digest : List Nat) : RR :=
  { rr with rdfs := [be32 serial ++ [dtype, 0] ++ digest] }

/-- Model of `zonemd_rr_update_digest`: unpack the stored serial and
digest type, fail (`errx`) when the stored type differs from the new
one, and repack with the new digest bytes. -/
def zonemd_rr_update_digest (rr : RR) (newType : Nat) (buf : List Nat) : Option RR :=
  if zonemdDigestType rr = newType then
    some (zonemd_rr_pack rr (rd32 (zonemdBlob rr)) newType buf)
  else none

/-- The zeroed copy `zonemd_rrlist_digest` hashes in place of an apex
ZONEMD record: same serial and digest type, parameter forced to 0, digest
replaced by zeros of the digester's length (or of the stored length when
the digest type is unsupported). -/
def zonemdZeroedCopy (rr : RR) : RR :=
  let dlen :=
    match zonemd_digester (zonemdDigestType rr) with
    | some n => n
    | none => min 64 ((zonemdBlob rr).length - 6)
  zonemd_rr_pack rr (rd32 (zonemdBlob rr)) (zonemdDigestType rr)
    (List.replicate dlen 0)

/-! ## The canonicalizer and the flat digest (`zonemd_rrlist_digest`) -/

/-- Duplicate test against the previously processed record
(`ldns_rr_compare(rr, prev) == 0`). -/
def isDup (prev : Option RR) (rr : RR) : Bool :=
  match prev with
  | none => false
  | some p =>
    match rrCmp rr p with
    | .eq => true
    | _ => false

/-- An RRSIG whose covered type is ZONEMD; excluded from the digest. -/
def isSkippedRRSIG (rr : RR) : Bool :=
  rr.rtype == RRSIG_TYPE && my_typecovered rr == ZONEMD_RR_TYPE

/-- Bytes fed to the hash for one surviving record: a ZONEMD at the apex
is replaced by its zeroed copy, everything else is hashed as stored. -/
def emitRR (origin : List (List Nat)) (rr : RR) : List Nat :=
  if rr.rtype = ZONEMD_RR_TYPE ∧ canonLabels rr.owner = canonLabels origin then
    ldns_rr2wire (zonemdZeroedCopy rr)
  else ldns_rr2wire rr

/-- The loop body of `zonemd_rrlist_digest` over an (already sorted)
record list, carrying the previous non-duplicate record: duplicates are
skipped, RRSIG-over-ZONEMD is skipped (but still becomes `prev`), the
rest is emitted. -/
def rrStream (origin : List (List Nat)) : List RR → Option RR → List Nat
  | [], _ => []
  | rr :: rest, prev =>
    if isDup prev rr then rrStream origin rest prev
    else if isSkippedRRSIG rr then rrStream origin rest (some rr)
    else emitRR origin rr ++ rrStream origin rest (some rr)

/-- The canonical byte stream of a record list: sort, then the emission
loop of `zonemd_rrlist_digest`. -/
def canonStream (origin : List (List Nat)) (l : List RR) : List Nat :=
  rrStream origin (rrSort l) none

/-- The flat-mode zone digest: `zonemd_calc_digest` without
`ZONEMD_INCREMENTAL` feeds the whole record list through
`zonemd_rrlist_digest` into one SHA-384 context. -/
def flatDigest (origin : List (List Nat)) (l : List RR) : List Nat :=
  sha384 (canonStream origin l)

/-! ## The incremental digest tree (`ZONEMD_INCREMENTAL`) -/

/-- A node of the digest tree (`struct _zonemd_tree`): depth, record
list, lazily allocated child array ([] models a NULL `kids` pointer),
the 48 cached digest bytes (calloc zeroes them) and the dirty flag. -/
inductive ZTree where
  | node (depth : Nat) (rrlist : List RR) (kids : List (Option ZTree))
      (digest : List Nat) (dirty : Bool)

/-- Depth of a node. -/
def ZTree.depth : ZTree → Nat
  | .node d _ _ _ _ => d

/-- Record list of a node. -/
def ZTree.rrlist : ZTree → List RR
  | .node _ r _ _ _ => r

/-- Children of a node. -/
def ZTree.kids : ZTree → List (Option ZTree)
  | .node _ _ k _ _ => k

/-- Cached digest buffer of a node. -/
def ZTree.digest : ZTree → List Nat
  | .node _ _ _ g _ => g

/-- Dirty flag of a node. -/
def ZTree.dirty : ZTree → Bool
  | .node _ _ _ _ b => b

/-- A freshly calloc'd node at the given depth. -/
def freshNode (d : Nat) : ZTree := .node d [] [] (List.replicate 48 0) false

/-- Child slot `i` of a node. -/
def getKid (t : ZTree) (i : Nat) : Option ZTree := t.kids.getD i none

/-- Model of `zonemd_tree_branch_by_name`: byte `depth mod len` of the
printable name, reduced mod the tree width. -/
def zonemd_tree_branch_by_name (depth : Nat) (name : List Nat) (W : Nat) : Nat :=
  if name.length = 0 then 0 else name.getD (depth % name.length) 0 % W

/-- Model of `zonemd_tree_get_leaf_by_name` fused with the rrlist push of
`zonemd_tree_add_rr`: every node on the path is marked dirty, missing
children are created, and the record is appended to the leaf's list.
`fuel` bounds the descent (`maxD + 1` at the root always suffices). -/
def treeAddGo (maxD W : Nat) : Nat → ZTree → List Nat → RR → ZTree
  | 0, t, _, _ => t
  | fuel + 1, .node d rrl kids dg _, nstr, rr =>
    if maxD > d then
      let branch := zonemd_tree_branch_by_name d nstr W
      let kids0 := if kids.isEmpty then List.replicate W none else kids
      let kid :=
        match kids0.getD branch none with
        | some k => k
        | none => freshNode (d + 1)
      .node d rrl (kids0.set branch (some (treeAddGo maxD W fuel kid nstr rr))) dg true
    else .node d (rrl ++ [rr]) kids dg true

/-- Model of `zonemd_tree_add_rr` from the root: route by the printable
owner name and append at the leaf, dirtying the whole path. -/
def zonemd_tree_add_rr (maxD W : Nat) (t : ZTree) (rr : RR) : ZTree :=
  treeAddGo maxD W (maxD + 1) t (nameStr rr.owner) rr

/-- Load a record list into a fresh tree, in order (`zonemd_read_zone`
pushes the SOA first, then every in-zone record). -/
def loadTree (maxD W : Nat) (rrs : List RR) : ZTree :=
  rrs.foldl (zonemd_tree_add_rr maxD W) (freshNode 0)

/-- The child loop of tree-mode `zonemd_calc_digest`: each present child
is recomputed with the parent's digest buffer as the output buffer
(`node->digest` is the scratch the C code passes down), and whatever that
buffer then holds is fed to the parent's hash.  Returns the updated
children, the final scratch value, and the concatenated hash input. -/
def calcKids (rec : ZTree → List Nat → ZTree × List Nat) :
    List (Option ZTree) → List Nat → List (Option ZTree) × List Nat × List Nat
  | [], scratch => ([], scratch, [])
  | none :: ks, scratch =>
    let r := calcKids rec ks scratch
    (none :: r.1, r.2.1, r.2.2)
  | some k :: ks, scratch =>
    let p := rec k scratch
    let r := calcKids rec ks p.2
    (some p.1 :: r.1, r.2.1, p.2 ++ r.2.2)

/-- Model of tree-mode `zonemd_calc_digest`: a clean node returns at once
(leaving the caller's buffer untouched); an interior node hashes the
scratch buffer after each child call; a leaf hashes the canonical stream
of its record list.  The final digest is written to the caller's buffer
`buf` (returned as the second component), the node is marked clean, and —
as in the C code — the node's own digest field is not written (for an
interior node it ends as the scratch left by the last dirty child). -/
def calcGo (maxD W : Nat) (origin : List (List Nat)) :
    Nat → ZTree → List Nat → ZTree × List Nat
  | 0, t, buf => (t, buf)
  | fuel + 1, .node d rrl kids dg dirty, buf =>
    if !dirty then (.node d rrl kids dg dirty, buf)
    else if maxD > d then
      let r := calcKids (calcGo maxD W origin fuel) kids dg
      (.node d rrl r.1 r.2.1 false, sha384 r.2.2)
    else (.node d rrl kids dg false, sha384 (canonStream origin rrl))

/-- Overwrite a node's digest buffer. -/
def setDigest (t : ZTree) (g : List Nat) : ZTree :=
  .node t.depth t.rrlist t.kids g t.dirty

/-- A root digest computation as `do_calculate` / `do_verify` perform it:
the output buffer is the root's own digest field (`md_buf =
theTree->digest`), so the final digest lands in the root node. -/
def calcRoot (maxD W : Nat) (origin : List (List Nat)) (t : ZTree) :
    ZTree × List Nat :=
  let p := calcGo maxD W origin (maxD + 1) t t.digest
  (setDigest p.1 p.2, p.2)

/-! ## Zone-level operations -/

/-- A placeholder record used for out-of-range list reads. -/
def dummyRR : RR := ⟨[], 0, 0, 0, []⟩

/-- Model of `zonemd_rr_find` (flat store): all ZONEMD records whose
owner compares equal to the origin, in store order.  The C function
always returns a freshly allocated (possibly empty, never NULL) list. -/
def zonemd_rr_find (origin : List (List Nat)) (z : List RR) : List RR :=
  z.filter (fun rr => rr.rtype == ZONEMD_RR_TYPE &&
    decide (canonLabels rr.owner = canonLabels origin))

/-- SOA serial: 32-bit value of the third rdata field
(`ldns_rr_rdf(the_soa, 2)`). -/
def soaSerial (soa : RR) : Nat := rd32 (soa.rdfs.getD 2 [])

/-- Model of `do_verify` (flat mode), returning the accumulated exit
status: for each apex ZONEMD, a serial mismatch sets the failure bit; an
unsupported digest type is skipped with a message and no bit; otherwise
the stored digest is compared with a freshly computed one. -/
def do_verify (origin : List (List Nat)) (soa : RR) (z : List RR) : Nat :=
  (zonemd_rr_find origin z).foldl
    (fun rc zm =>
      let rc := if rd32 (zonemdBlob zm) ≠ soaSerial soa then rc ||| 1 else rc
      match zonemd_digester (zonemdDigestType zm) with
      | none => rc
      | some mdlen =>
        if (zonemdStoredDigest zm).take mdlen ≠ flatDigest origin z
        then rc ||| 1 else rc)
    0

/-- Model of `do_calculate` (flat mode, no signing key): for each apex
ZONEMD position in store order, compute the digest of the current zone
and pack it into that record; an unsupported digest type hits
`assert(md)` (modelled as `none`).  With no apex ZONEMD the loop body
never runs and the function completes, returning the zone unchanged —
the `errx` guarding against a missing ZONEMD tests a list pointer that
is never NULL. -/
def do_calculate (origin : List (List Nat)) (z : List RR) : Option (List RR) :=
  ((List.range z.length).filter
      (fun i => (z.getD i dummyRR).rtype == ZONEMD_RR_TYPE &&
        decide (canonLabels (z.getD i dummyRR).owner = canonLabels origin))).foldlM
    (fun zcur i =>
      let zm := zcur.getD i dummyRR
      match zonemd_digester (zonemdDigestType zm) with
      | none => none
      | some mdlen =>
        some (zcur.set i (zonemd_rr_pack zm (rd32 (zonemdBlob zm))
          (zonemdDigestType zm) ((flatDigest origin zcur).take mdlen))))
    z

/-- One parsed line of the update script. -/
inductive UpdateLine where
  | add (rr : RR)
  | del (rr : RR)

/-- Model of `zonemd_zone_update` over the parsed lines: an `add` line
pushes the record into the store unconditionally; a `del` line only
increments the deletion counter — the store is not touched.  Returns the
store and the (n_add, n_del) counters. -/
def zonemd_zone_update (z : List RR) (lines : List UpdateLine) :
    List RR × Nat × Nat :=
  lines.foldl
    (fun st ln =>
      match ln with
      | .add rr => (st.1 ++ [rr], st.2.1 + 1, st.2.2)
      | .del _ => (st.1, st.2.1, st.2.2 + 1))
    (z, 0, 0)

/-- Model of `zonemd_read_zone`: the SOA is pushed first; every other
record is kept only when its owner equals the origin or is a subdomain
of it, out-of-zone records are skipped with a warning. -/
def zonemd_read_zone (origin : List (List Nat)) (soa : RR) (rrs : List RR) :
    List RR :=
  soa :: rrs.filter (fun rr =>
    decide (canonLabels rr.owner = canonLabels origin) ||
    ldns_dname_is_subdomain rr.owner origin)

/-! ## Concrete zones used as witnesses and counterexamples -/

/-- The label bytes of `example`. -/
def exLabel : List Nat := [101, 120, 97, 109, 112, 108, 101]

/-- The origin name `example.`. -/
def org : List (List Nat) := [exLabel]

/-- The SOA record `example. 3600 IN SOA n. n. 1 2 3 4 5` (rdata fields:
mname, rname, serial, refresh, retry, expire, minimum). -/
def soaC : RR :=
  ⟨org, 6, 1, 3600,
    [[1, 110, 0], [1, 110, 0], be32 1, be32 2, be32 3, be32 4, be32 5]⟩

/-- An A record at `a.example.` (printable name byte 0 is 97). -/
def rrA : RR := ⟨[[97], exLabel], 1, 1, 3600, [[1, 2, 3, 4]]⟩

/-- An A record at `c.example.` (printable name byte 0 is 99). -/
def rrC : RR := ⟨[[99], exLabel], 1, 1, 3600, [[5, 6, 7, 8]]⟩

/-- A TXT record at `c.example.`. -/
def txtC : RR := ⟨[[99], exLabel], 16, 1, 3600, [[1, 120]]⟩

/-- An apex ZONEMD, serial 1, digest type 1, all-zero digest. -/
def zmA : RR := ⟨org, 63, 1, 300, [be32 1 ++ [1, 0] ++ List.replicate 48 0]⟩

/-- An apex ZONEMD, serial 1, digest type 1, all-0xff digest. -/
def zmFF : RR := ⟨org, 63, 1, 300, [be32 1 ++ [1, 0] ++ List.replicate 48 255]⟩

/-- The digest of the zone `{soaC, zmA, zmFF}`; because both ZONEMD
records are hashed as identical zeroed copies, this is also the digest of
`{soaC, zmA, zmB}` for any second ZONEMD distinct from `zmA`. -/
def dstar : List Nat := flatDigest org [soaC, zmA, zmFF]

/-- An apex ZONEMD whose stored digest already equals the zone digest. -/
def zmB : RR := ⟨org, 63, 1, 300, [be32 1 ++ [1, 0] ++ dstar]⟩

/-- The pathological zone for the self-reference claim: one apex ZONEMD
with a zero digest next to one that already stores the computed digest. -/
def z4c : List RR := [soaC, zmA, zmB]

/-- An apex ZONEMD with unsupported digest type 2 (serial 1, 4 junk
digest bytes). -/
def zmT2 : RR := ⟨org, 63, 1, 300, [be32 1 ++ [2, 0] ++ [9, 9, 9, 9]]⟩

/-- The zone used against the verify exit-status claim: its only apex
ZONEMD carries an unsupported digest type. -/
def z8 : List RR := [soaC, zmT2]

/-- An RRSIG covering ZONEMD at the apex (covered type 63 in the first
rdata field, then junk signature fields). -/
def sigZ : RR := ⟨org, 46, 1, 300, [be16 63, [13, 2], [0, 0, 1, 44]]⟩

/-- A record whose owner `o.` is outside the zone `example.`. -/
def rrOut : RR := ⟨[[111]], 1, 1, 3600, [[9, 8, 7, 6]]⟩

/-- The trees of the incremental counterexamples: depth 1, width 3, so
that `c.example.` (byte 99) routes to branch 0, `a.example.` (byte 97)
to branch 1, and `example.` (byte 101) to branch 2. -/
def z2zone : List RR := [soaC, rrA, rrC]

/-- The freshly loaded and fully computed tree over `z2zone`. -/
def t2pair : ZTree × List Nat := calcRoot 1 3 org (loadTree 1 3 z2zone)

/-- The computed tree after adding `txtC` through the add operation. -/
def t2added : ZTree := zonemd_tree_add_rr 1 3 t2pair.1 txtC

/-- Root digest recomputed incrementally after the addition. -/
def t2recomputed : List Nat := (calcRoot 1 3 org t2added).2

/-- Root digest of a fresh tree loaded with the resulting record list. -/
def t2fresh : List Nat := (calcRoot 1 3 org (loadTree 1 3 (z2zone ++ [txtC]))).2

/-- The apex leaf (branch 2) of the computed tree `t2pair.1`. -/
def apexLeaf : ZTree := (getKid t2pair.1 2).getD (freshNode 1)

/-! ## Laws of the comparison functions -/

/-- The well-behavedness facts needed of a three-way comparison: `eq`
means equality, swapping arguments swaps the verdict, and strict
comparison is transitive. -/
structure CmpLaws {α : Type} (c : α → α → Ordering) : Prop where
  eq_iff : ∀ a b, c a b = .eq ↔ a = b
  swap : ∀ a b, (c a b).swap = c b a
  lt_trans : ∀ ⦃a b d⦄, c a b = .lt → c b d = .lt → c a d = .lt

theorem cmpNat_of_lt {a b : Nat} (h : a < b) : cmpNat a b = .lt := by
  unfold cmpNat
  simp [h]

theorem cmpNat_of_gt {a b : Nat} (h : b < a) : cmpNat a b = .gt := by
  unfold cmpNat
  rw [if_neg (by omega), if_pos h]

theorem cmpNat_of_eq {a : Nat} : cmpNat a a = .eq := by
  unfold cmpNat
  simp

theorem cmpNat_laws : CmpLaws cmpNat := by
  constructor
  · intro a b
    rcases Nat.lt_trichotomy a b with h | h | h
    · rw [cmpNat_of_lt h]; simp; omega
    · subst h; rw [cmpNat_of_eq]; simp
    · rw [cmpNat_of_gt h]; simp; omega
  · intro a b
    rcases Nat.lt_trichotomy a b with h | h | h
    · rw [cmpNat_of_lt h, cmpNat_of_gt h]; rfl
    · subst h; rw [cmpNat_of_eq]; rfl
    · rw [cmpNat_of_gt h, cmpNat_of_lt h]; rfl
  · intro a b d h1 h2
    have hab : a < b := by
      unfold cmpNat at h1
      split at h1
      · assumption
      · split at h1 <;> simp_all
    have hbd : b < d := by
      unfold cmpNat at h2
      split at h2
      · assumption
      · split at h2 <;> simp_all
    exact cmpNat_of_lt (Nat.lt_trans hab hbd)

theorem lexCmp_laws {α : Type} {c : α → α → Ordering} (h : CmpLaws c) :
    CmpLaws (lexCmp c) := by
  constructor
  · intro as
    induction as with
    | nil => intro bs; cases bs <;> simp [lexCmp]
    | cons a as ih =>
      intro bs
      cases bs with
      | nil => simp [lexCmp]
      | cons b bs =>
        simp only [lexCmp]
        cases hab : c a b with
        | eq =>
          have hb : a = b := (h.eq_iff a b).1 hab
          simp [hb, ih]
        | lt => simp; intro he; rw [he] at hab; rw [(h.eq_iff b b).2 rfl] at hab; cases hab
        | gt => simp; intro he; rw [he] at hab; rw [(h.eq_iff b b).2 rfl] at hab; cases hab
  · intro as
    induction as with
    | nil => intro bs; cases bs <;> simp [lexCmp, Ordering.swap]
    | cons a as ih =>
      intro bs
      cases bs with
      | nil => simp [lexCmp, Ordering.swap]
      | cons b bs =>
        simp only [lexCmp]
        cases hab : c a b with
        | eq =>
          have hba : c b a = .eq := by rw [← h.swap a b, hab]; rfl
          simp [hba, ih]
        | lt =>
          have hba : c b a = .gt := by rw [← h.swap a b, hab]; rfl
          simp [hba, Ordering.swap]
        | gt =>
          have hba : c b a = .lt := by rw [← h.swap a b, hab]; rfl
          simp [hba, Ordering.swap]
  · intro as
    induction as with
    | nil =>
      intro bs ds h1 h2
      cases bs with
      | nil => simp [lexCmp] at h1
      | cons b bs =>
        cases ds with
        | nil => simp [lexCmp] at h2
        | cons d ds => rfl
    | cons a as ih =>
      intro bs ds h1 h2
      cases bs with
      | nil => simp [lexCmp] at h1
      | cons b bs =>
        cases ds with
        | nil => simp [lexCmp] at h2
        | cons d ds =>
          simp only [lexCmp] at h1 h2 ⊢
          cases hab : c a b with
          | eq =>
            have hb : a = b := (h.eq_iff a b).1 hab
            subst hb
            rw [hab] at h1
            cases had : c a d with
            | eq =>
              have hd : a = d := (h.eq_iff a d).1 had
              subst hd
              rw [had] at h2
              exact ih h1 h2
            | lt => rfl
            | gt => rw [had] at h2; cases h2
          | lt =>
            cases hbd : c b d with
            | eq =>
              have hd : b = d := (h.eq_iff b d).1 hbd
              subst hd
              rw [hab]
            | lt => rw [h.lt_trans hab hbd]
            | gt => rw [hbd] at h2; cases h2
          | gt => rw [hab] at h1; cases h1

theorem prodCmp_laws {α β : Type} {ca : α → α → Ordering} {cb : β → β → Ordering}
    (ha : CmpLaws ca) (hb : CmpLaws cb) : CmpLaws (prodCmp ca cb) := by
  constructor
  · intro x y
    obtain ⟨a1, b1⟩ := x
    obtain ⟨a2, b2⟩ := y
    simp only [prodCmp]
    cases hc : ca a1 a2 with
    | eq =>
      have : a1 = a2 := (ha.eq_iff a1 a2).1 hc
      subst this
      simp [hb.eq_iff]
    | lt =>
      simp
      intro he
      rw [he, (ha.eq_iff a2 a2).2 rfl] at hc
      cases hc
    | gt =>
      simp
      intro he
      rw [he, (ha.eq_iff a2 a2).2 rfl] at hc
      cases hc
  · intro x y
    obtain ⟨a1, b1⟩ := x
    obtain ⟨a2, b2⟩ := y
    simp only [prodCmp]
    cases hc : ca a1 a2 with
    | eq =>
      have hc2 : ca a2 a1 = .eq := by rw [← ha.swap a1 a2, hc]; rfl
      simp [hc2, hb.swap]
    | lt =>
      have hc2 : ca a2 a1 = .gt := by rw [← ha.swap a1 a2, hc]; rfl
      simp [hc2, Ordering.swap]
    | gt =>
      have hc2 : ca a2 a1 = .lt := by rw [← ha.swap a1 a2, hc]; rfl
      simp [hc2, Ordering.swap]
  · intro x y z h1 h2
    obtain ⟨a1, b1⟩ := x
    obtain ⟨a2, b2⟩ := y
    obtain ⟨a3, b3⟩ := z
    simp only [prodCmp] at h1 h2 ⊢
    cases h12 : ca a1 a2 with
    | eq =>
      have : a1 = a2 := (ha.eq_iff a1 a2).1 h12
      subst this
      rw [h12] at h1
      cases h13 : ca a1 a3 with
      | eq =>
        have : a1 = a3 := (ha.eq_iff a1 a3).1 h13
        subst this
        rw [h13] at h2
        exact hb.lt_trans h1 h2
      | lt => rfl
      | gt => rw [h13] at h2; cases h2
    | lt =>
      cases h23 : ca a2 a3 with
      | eq =>
        have : a2 = a3 := (ha.eq_iff a2 a3).1 h23
        subst this
        rw [h12]
      | lt => rw [ha.lt_trans h12 h23]
      | gt => rw [h23] at h2; cases h2
    | gt => rw [h12] at h1; cases h1

theorem cmpBytes_laws : CmpLaws cmpBytes := lexCmp_laws cmpNat_laws

theorem cmpLabels_laws : CmpLaws cmpLabels := lexCmp_laws cmpBytes_laws

theorem keyCmp_laws : CmpLaws keyCmp :=
  prodCmp_laws cmpLabels_laws (prodCmp_laws cmpNat_laws
    (prodCmp_laws cmpNat_laws (prodCmp_laws cmpNat_laws cmpBytes_laws)))

theorem rrCmp_eq_iff {a b : RR} : rrCmp a b = .eq ↔ rrKey a = rrKey b :=
  keyCmp_laws.eq_iff (rrKey a) (rrKey b)

theorem rrCmp_self (a : RR) : rrCmp a a = .eq := rrCmp_eq_iff.2 rfl

theorem rrCmp_swap (a b : RR) : (rrCmp a b).swap = rrCmp b a :=
  keyCmp_laws.swap (rrKey a) (rrKey b)

theorem rrCmp_gt_iff {a b : RR} : rrCmp a b = .gt ↔ rrCmp b a = .lt := by
  rw [← rrCmp_swap a b]
  cases rrCmp a b <;> simp [Ordering.swap]

theorem rrCmp_congr_left {a b : RR} (h : rrCmp a b = .eq) (x : RR) :
    rrCmp a x = rrCmp b x := by
  unfold rrCmp
  rw [rrCmp_eq_iff.1 h]

theorem rrCmp_congr_right {a b : RR} (h : rrCmp a b = .eq) (x : RR) :
    rrCmp x a = rrCmp x b := by
  unfold rrCmp
  rw [rrCmp_eq_iff.1 h]

theorem rrLE_refl (a : RR) : rrLE a a := by
  unfold rrLE
  rw [rrCmp_self]
  simp

theorem rrLE_of_gt {a b : RR} (h : rrCmp a b = .gt) : rrLE b a := by
  unfold rrLE
  rw [rrCmp_gt_iff.1 h]
  simp

theorem rrLE_trans {a b d : RR} (h1 : rrLE a b) (h2 : rrLE b d) : rrLE a d := by
  unfold rrLE at *
  cases hab : rrCmp a b with
  | gt => exact absurd hab h1
  | eq => rw [rrCmp_congr_left hab d]; exact h2
  | lt =>
    cases hbd : rrCmp b d with
    | gt => exact absurd hbd h2
    | eq => rw [← rrCmp_congr_right hbd a, hab]; simp
    | lt =>
      have had : rrCmp a d = .lt := keyCmp_laws.lt_trans hab hbd
      rw [had]
      simp

theorem rrCmp_eq_of_le_le {a b : RR} (h1 : rrLE a b) (h2 : rrLE b a) :
    rrCmp a b = .eq := by
  unfold rrLE at h1 h2
  cases hab : rrCmp a b with
  | eq => rfl
  | gt => exact absurd hab h1
  | lt => exact absurd (rrCmp_gt_iff.2 hab) h2

/-! ## Sorting lemmas -/

theorem mem_rrInsert {x : RR} :
    ∀ {s : List RR} {a : RR}, a ∈ rrInsert x s → a = x ∨ a ∈ s := by
  intro s
  induction s with
  | nil => intro a ha; simp [rrInsert] at ha; exact Or.inl ha
  | cons y ys ih =>
    intro a ha
    simp only [rrInsert] at ha
    cases h : rrCmp x y with
    | gt =>
      rw [h] at ha
      simp only [List.mem_cons] at ha
      rcases ha with ha | ha
      · exact Or.inr (by simp [ha])
      · rcases ih ha with ha | ha
        · exact Or.inl ha
        · exact Or.inr (by simp [ha])
    | lt =>
      rw [h] at ha
      simp only [List.mem_cons] at ha
      rcases ha with ha | ha
      · exact Or.inl ha
      · exact Or.inr (by simpa using ha)
    | eq =>
      rw [h] at ha
      simp only [List.mem_cons] at ha
      rcases ha with ha | ha
      · exact Or.inl ha
      · exact Or.inr (by simpa using ha)

theorem rrInsert_pairwise {x : RR} :
    ∀ {s : List RR}, s.Pairwise rrLE → (rrInsert x s).Pairwise rrLE := by
  intro s
  induction s with
  | nil => intro _; simp [rrInsert]
  | cons y ys ih =>
    intro hs
    rw [List.pairwise_cons] at hs
    obtain ⟨hy, hys⟩ := hs
    simp only [rrInsert]
    cases h : rrCmp x y with
    | gt =>
      rw [List.pairwise_cons]
      refine ⟨?_, ih hys⟩
      intro b hb
      rcases mem_rrInsert hb with hb | hb
      · subst hb; exact rrLE_of_gt h
      · exact hy b hb
    | lt =>
      rw [List.pairwise_cons]
      refine ⟨?_, by rw [List.pairwise_cons]; exact ⟨hy, hys⟩⟩
      intro b hb
      simp only [List.mem_cons] at hb
      rcases hb with hb | hb
      · subst hb; unfold rrLE; rw [h]; simp
      · exact rrLE_trans (show rrLE x y by unfold rrLE; rw [h]; simp) (hy b hb)
    | eq =>
      rw [List.pairwise_cons]
      refine ⟨?_, by rw [List.pairwise_cons]; exact ⟨hy, hys⟩⟩
      intro b hb
      simp only [List.mem_cons] at hb
      rcases hb with hb | hb
      · subst hb; unfold rrLE; rw [h]; simp
      · exact rrLE_trans (show rrLE x y by unfold rrLE; rw [h]; simp) (hy b hb)

theorem rrSort_pairwise (l : List RR) : (rrSort l).Pairwise rrLE := by
  induction l with
  | nil => simp [rrSort]
  | cons x xs ih => exact rrInsert_pairwise ih

theorem rrInsert_nil (x : RR) : rrInsert x [] = [x] := rfl

theorem rrInsert_cons_gt {x y : RR} (h : rrCmp x y = .gt) (ys : List RR) :
    rrInsert x (y :: ys) = y :: rrInsert x ys := by
  simp only [rrInsert, h]

theorem rrInsert_cons_le {x y : RR} (h : rrCmp x y ≠ .gt) (ys : List RR) :
    rrInsert x (y :: ys) = x :: y :: ys := by
  cases hc : rrCmp x y
  · simp only [rrInsert, hc]
  · simp only [rrInsert, hc]
  · exact absurd hc h

/-- Inserting a record into a sorted list that contains a distinguished
occurrence of `x` lands it on a definite side of that occurrence: the
result and the insertion into the list without `x` share a common split.
Everything of the prefix stays in the prefix, and a record comparing
equal to `x` is inserted into the prefix (insertion places it before the
existing equal run member `x`). -/
theorem rrInsert_split (a x : RR) :
    ∀ (u v : List RR), (u ++ x :: v).Pairwise rrLE →
    ∃ u2 v2, rrInsert a (u ++ x :: v) = u2 ++ x :: v2 ∧
      rrInsert a (u ++ v) = u2 ++ v2 ∧
      (∀ r ∈ u, r ∈ u2) ∧ (rrCmp a x = .eq → a ∈ u2) := by
  intro u
  induction u with
  | nil =>
    intro v hp
    simp only [List.nil_append] at hp ⊢
    cases h : rrCmp a x with
    | gt =>
      refine ⟨[], rrInsert a v, ?_, rfl, by simp, by intro he; cases he⟩
      rw [rrInsert_cons_gt h]
      rfl
    | lt =>
      refine ⟨[a], v, ?_, ?_, by simp, by intro _; simp⟩
      · rw [rrInsert_cons_le (by rw [h]; simp)]
        rfl
      · cases v with
        | nil => rfl
        | cons y ys =>
          rw [List.pairwise_cons] at hp
          have hxy : rrLE x y := hp.1 y (by simp)
          have hay : rrLE a y := rrLE_trans (by unfold rrLE; rw [h]; simp) hxy
          rw [rrInsert_cons_le hay]
          rfl
    | eq =>
      refine ⟨[a], v, ?_, ?_, by simp, by intro _; simp⟩
      · rw [rrInsert_cons_le (by rw [h]; simp)]
        rfl
      · cases v with
        | nil => rfl
        | cons y ys =>
          rw [List.pairwise_cons] at hp
          have hxy : rrLE x y := hp.1 y (by simp)
          have hay : rrLE a y := rrLE_trans (by unfold rrLE; rw [h]; simp) hxy
          rw [rrInsert_cons_le hay]
          rfl
  | cons b u1 ih =>
    intro v hp
    rw [List.cons_append, List.pairwise_cons] at hp
    obtain ⟨hb, hp1⟩ := hp
    cases h : rrCmp a b with
    | gt =>
      obtain ⟨u2, v2, e1, e2, hmem, heq⟩ := ih v hp1
      refine ⟨b :: u2, v2, ?_, ?_, ?_, ?_⟩
      · rw [List.cons_append, rrInsert_cons_gt h, e1]
        rfl
      · rw [List.cons_append, rrInsert_cons_gt h, e2]
        rfl
      · intro r hr
        rcases List.mem_cons.1 hr with hr | hr
        · simp [hr]
        · simp [hmem r hr]
      · intro he
        simp [heq he]
    | lt =>
      refine ⟨a :: b :: u1, v, ?_, ?_, ?_, by intro _; simp⟩
      · rw [List.cons_append, rrInsert_cons_le (by rw [h]; simp)]
        rfl
      · rw [List.cons_append, rrInsert_cons_le (by rw [h]; simp)]
        rfl
      · intro r hr
        simp [List.mem_cons.1 hr]
    | eq =>
      refine ⟨a :: b :: u1, v, ?_, ?_, ?_, by intro _; simp⟩
      · rw [List.cons_append, rrInsert_cons_le (by rw [h]; simp)]
        rfl
      · rw [List.cons_append, rrInsert_cons_le (by rw [h]; simp)]
        rfl
      · intro r hr
        simp [List.mem_cons.1 hr]

/-- Sorting a list with one distinguished element yields the sort of the
remaining elements with that element spliced in; records of the rest
that compare equal to it end up before it (the sort is stable and the
distinguished occurrence is inserted first, i.e. appended last). -/
theorem rrSort_split (l1 l2 : List RR) (x : RR) :
    ∃ u v, rrSort (l1 ++ x :: l2) = u ++ x :: v ∧
      rrSort (l1 ++ l2) = u ++ v ∧
      (∀ r ∈ l1, rrCmp r x = .eq → r ∈ u) := by
  induction l1 with
  | nil =>
    simp only [List.nil_append]
    -- rrSort (x :: l2) = rrInsert x (rrSort l2); split rrInsert
    have : ∀ s : List RR, ∃ u v, rrInsert x s = u ++ x :: v ∧ s = u ++ v := by
      intro s
      induction s with
      | nil => exact ⟨[], [], rfl, rfl⟩
      | cons y ys ih =>
        cases h : rrCmp x y with
        | gt =>
          obtain ⟨u, v, e1, e2⟩ := ih
          exact ⟨y :: u, v, by rw [rrInsert_cons_gt h, e1]; rfl,
            by rw [e2]; rfl⟩
        | lt =>
          exact ⟨[], y :: ys,
            by rw [rrInsert_cons_le (by rw [h]; simp)]; rfl, rfl⟩
        | eq =>
          exact ⟨[], y :: ys,
            by rw [rrInsert_cons_le (by rw [h]; simp)]; rfl, rfl⟩
    obtain ⟨u, v, e1, e2⟩ := this (rrSort l2)
    exact ⟨u, v, e1, e2, by simp⟩
  | cons b l1' ih =>
    obtain ⟨u, v, e1, e2, hmem⟩ := ih
    have hp : (u ++ x :: v).Pairwise rrLE := by
      rw [← e1]
      exact rrSort_pairwise _
    obtain ⟨u2, v2, f1, f2, fmem, feq⟩ := rrInsert_split b x u v hp
    refine ⟨u2, v2, ?_, ?_, ?_⟩
    · show rrInsert b (rrSort (l1' ++ x :: l2)) = u2 ++ x :: v2
      rw [e1, f1]
    · show rrInsert b (rrSort (l1' ++ l2)) = u2 ++ v2
      rw [e2, f2]
    · intro r hr hre
      rcases List.mem_cons.1 hr with hr | hr
      · subst hr
        exact feq hre
      · exact fmem r (hmem r hr hre)

/-! ## Canonical stream lemmas -/

theorem rrStream_nil (origin : List (List Nat)) (prev : Option RR) :
    rrStream origin [] prev = [] := rfl

theorem rrStream_cons (origin : List (List Nat)) (rr : RR) (rest : List RR)
    (prev : Option RR) :
    rrStream origin (rr :: rest) prev =
      if isDup prev rr then rrStream origin rest prev
      else if isSkippedRRSIG rr then rrStream origin rest (some rr)
      else emitRR origin rr ++ rrStream origin rest (some rr) := rfl

theorem isDup_some_iff {p rr : RR} : isDup (some p) rr = true ↔ rrCmp rr p = .eq := by
  simp only [isDup]
  cases h : rrCmp rr p <;> simp

theorem rrCmp_eq_symm {a b : RR} (h : rrCmp a b = .eq) : rrCmp b a = .eq :=
  rrCmp_eq_iff.2 (rrCmp_eq_iff.1 h).symm

theorem rrLE_of_eq {a b : RR} (h : rrCmp a b = .eq) : rrLE a b := by
  unfold rrLE
  rw [h]
  simp

theorem rrKey_fields {a b : RR} (h : rrCmp a b = .eq) :
    canonLabels a.owner = canonLabels b.owner ∧ a.rtype = b.rtype ∧
    a.rclass = b.rclass ∧ a.ttl = b.ttl ∧ rdataWire a = rdataWire b := by
  have hk := rrCmp_eq_iff.1 h
  unfold rrKey at hk
  simp only [Prod.mk.injEq] at hk
  exact hk

theorem isSkippedRRSIG_congr {a b : RR} (h : rrCmp a b = .eq) :
    isSkippedRRSIG a = isSkippedRRSIG b := by
  obtain ⟨_, ht, _, _, hr⟩ := rrKey_fields h
  unfold isSkippedRRSIG my_typecovered
  rw [ht, hr]

/-- Changing the carried previous record to a comparator-equal one does
not change the emitted stream: the duplicate test sees the same verdict,
and the carried record is replaced by the next surviving record at the
first non-duplicate. -/
theorem rrStream_prev_congr (origin : List (List Nat)) :
    ∀ (s : List RR) {p q : RR}, rrCmp p q = .eq →
      rrStream origin s (some p) = rrStream origin s (some q) := by
  intro s
  induction s with
  | nil => intro p q _; rfl
  | cons rr rest ih =>
    intro p q hpq
    have hd : isDup (some p) rr = isDup (some q) rr := by
      simp only [isDup]
      rw [rrCmp_congr_right hpq rr]
    cases h : isDup (some p) rr with
    | true =>
      rw [rrStream_cons, rrStream_cons, if_pos h, if_pos (hd ▸ h)]
      exact ih hpq
    | false =>
      have h2 : isDup (some q) rr = false := hd ▸ h
      rw [rrStream_cons, rrStream_cons, h, h2]
      simp

/-- After a skipped RRSIG-over-ZONEMD became the carried previous record,
the stream of the remaining sorted records is as if it had never been
carried: any record it would absorb as a duplicate is itself a skipped
RRSIG-over-ZONEMD. -/
theorem rrStream_prev_skip (origin : List (List Nat)) (sig : RR)
    (hsig : isSkippedRRSIG sig = true) :
    ∀ (v : List RR) {prev : Option RR},
      (sig :: v).Pairwise rrLE →
      (∀ p, prev = some p → rrLE p sig) →
      isDup prev sig = false →
      rrStream origin v (some sig) = rrStream origin v prev := by
  intro v
  induction v with
  | nil => intro prev _ _ _; rfl
  | cons y ys ih =>
    intro prev hp hple hnd
    have hsy : rrLE sig y := (List.pairwise_cons.1 hp).1 y (by simp)
    have hp' : (sig :: ys).Pairwise rrLE := by
      rw [List.pairwise_cons] at hp ⊢
      obtain ⟨h1, h2⟩ := hp
      rw [List.pairwise_cons] at h2
      exact ⟨fun b hb => h1 b (by simp [hb]), h2.2⟩
    cases hys : rrCmp y sig with
    | lt => exact absurd (rrCmp_gt_iff.2 hys) hsy
    | eq =>
      have hdl : isDup (some sig) y = true := isDup_some_iff.2 hys
      rw [rrStream_cons, if_pos hdl]
      cases hdp : isDup prev y with
      | true =>
        rw [rrStream_cons origin y ys prev, if_pos hdp]
        exact ih hp' hple hnd
      | false =>
        have hsy2 : isSkippedRRSIG y = true := by
          rw [isSkippedRRSIG_congr hys]
          exact hsig
        rw [rrStream_cons origin y ys prev, hdp]
        simp only [Bool.false_eq_true, if_false, if_pos hsy2]
        exact rrStream_prev_congr origin ys (rrCmp_eq_symm hys)
    | gt =>
      have hdl : isDup (some sig) y = false := by
        simp [isDup, hys]
      cases hdp : isDup prev y with
      | true =>
        cases prev with
        | none => cases hdp
        | some p =>
          have hyp : rrCmp y p = .eq := isDup_some_iff.1 hdp
          have hps : rrLE p sig := hple p rfl
          have h1 : rrCmp sig p = rrCmp sig y := rrCmp_congr_right (rrCmp_eq_symm hyp) sig
          have h2 : rrLE sig p := by
            unfold rrLE
            rw [h1]
            exact hsy
          have h3 : rrCmp p sig = .eq := rrCmp_eq_of_le_le hps h2
          have h4 : isDup (some p) sig = true := isDup_some_iff.2 (rrCmp_eq_symm h3)
          rw [h4] at hnd
          cases hnd
      | false =>
        rw [rrStream_cons origin y ys (some sig), rrStream_cons origin y ys prev,
          hdl, hdp]
        simp

/-- The canonicalizer never feeds an RRSIG covering ZONEMD to the hash:
splicing such a record into a sorted list does not change the emitted
byte stream. -/
theorem rrStream_skip_rrsig (origin : List (List Nat)) (sig : RR)
    (hsig : isSkippedRRSIG sig = true) :
    ∀ (u : List RR) {v : List RR} {prev : Option RR},
      (u ++ sig :: v).Pairwise rrLE →
      (∀ p, prev = some p → rrLE p sig) →
      rrStream origin (u ++ sig :: v) prev = rrStream origin (u ++ v) prev := by
  intro u
  induction u with
  | nil =>
    intro v prev hp hple
    simp only [List.nil_append] at hp ⊢
    cases hnd : isDup prev sig with
    | true => rw [rrStream_cons, if_pos hnd]
    | false =>
      rw [rrStream_cons, hnd]
      simp only [Bool.false_eq_true, if_false, if_pos hsig]
      exact rrStream_prev_skip origin sig hsig v hp hple hnd
  | cons a u1 ih =>
    intro v prev hp hple
    simp only [List.cons_append] at hp ⊢
    rw [List.pairwise_cons] at hp
    obtain ⟨hhead, hp1⟩ := hp
    have has : rrLE a sig := hhead sig (by simp)
    have hple' : ∀ p, (some a : Option RR) = some p → rrLE p sig := by
      intro p hp2
      cases hp2
      exact has
    have e1 := ih hp1 hple'
    cases hda : isDup prev a with
    | true =>
      rw [rrStream_cons origin a (u1 ++ sig :: v) prev,
        rrStream_cons origin a (u1 ++ v) prev, if_pos hda, if_pos hda]
      exact ih hp1 hple
    | false =>
      rw [rrStream_cons origin a (u1 ++ sig :: v) prev,
        rrStream_cons origin a (u1 ++ v) prev, hda]
      cases hs : isSkippedRRSIG a with
      | true => simp [hs, e1]
      | false => simp [hs, e1]

/-- A record that compares equal to an earlier surviving record is
absorbed by the duplicate check: splicing it into a sorted list right
after a run containing a comparator-equal record (or right after an
equal carried record) does not change the emitted byte stream. -/
theorem rrStream_skip_dup (origin : List (List Nat)) (x : RR) :
    ∀ (u : List RR) {v : List RR} {prev : Option RR},
      (u ++ x :: v).Pairwise rrLE →
      (∀ p, prev = some p → ∀ b ∈ u ++ x :: v, rrLE p b) →
      ((∃ p, prev = some p ∧ rrCmp x p = .eq) ∨ (∃ a ∈ u, rrCmp a x = .eq)) →
      rrStream origin (u ++ x :: v) prev = rrStream origin (u ++ v) prev := by
  intro u
  induction u with
  | nil =>
    intro v prev hp hps hsrc
    rcases hsrc with ⟨p, hpe, hxe⟩ | ⟨a, ha, _⟩
    · subst hpe
      have hd : isDup (some p) x = true := isDup_some_iff.2 hxe
      simp only [List.nil_append]
      rw [rrStream_cons, if_pos hd]
    · simp at ha
  | cons b u1 ih =>
    intro v prev hp hps hsrc
    simp only [List.cons_append] at hp hps ⊢
    rw [List.pairwise_cons] at hp
    obtain ⟨hhead, hp1⟩ := hp
    have hbx : rrLE b x := hhead x (by simp)
    cases hdb : isDup prev b with
    | true =>
      rw [rrStream_cons origin b (u1 ++ x :: v) prev,
        rrStream_cons origin b (u1 ++ v) prev, if_pos hdb, if_pos hdb]
      apply ih hp1
      · intro p hpe c hc
        exact hps p hpe c (by simp [hc])
      · rcases hsrc with ⟨p, hpe, hxe⟩ | ⟨a, ha, hae⟩
        · exact Or.inl ⟨p, hpe, hxe⟩
        · rcases List.mem_cons.1 ha with hab | ha1
          · subst hab
            cases prev with
            | none => exact Bool.noConfusion hdb
            | some p =>
              have hbp : rrCmp a p = .eq := isDup_some_iff.1 hdb
              have h2 : rrCmp x a = .eq := rrCmp_eq_symm hae
              have h3 : rrCmp x p = .eq := by
                rw [← rrCmp_congr_right hbp x]
                exact h2
              exact Or.inl ⟨p, rfl, h3⟩
          · exact Or.inr ⟨a, ha1, hae⟩
    | false =>
      have hsrc' : (∃ p, (some b : Option RR) = some p ∧ rrCmp x p = .eq) ∨
          (∃ a ∈ u1, rrCmp a x = .eq) := by
        rcases hsrc with ⟨p, hpe, hxe⟩ | ⟨a, ha, hae⟩
        · subst hpe
          have hpb : rrLE p b := hps p rfl b (by simp)
          have h2 : rrLE b p := by
            unfold rrLE
            rw [← rrCmp_congr_right hxe b]
            exact hbx
          have h3 : rrCmp b p = .eq := rrCmp_eq_of_le_le h2 hpb
          have h4 : isDup (some p) b = true := isDup_some_iff.2 h3
          rw [h4] at hdb
          cases hdb
        · rcases List.mem_cons.1 ha with hab | ha1
          · subst hab
            exact Or.inl ⟨a, rfl, rrCmp_eq_symm hae⟩
          · exact Or.inr ⟨a, ha1, hae⟩
      have hps' : ∀ p, (some b : Option RR) = some p → ∀ c ∈ u1 ++ x :: v, rrLE p c := by
        intro p hpe c hc
        cases hpe
        exact hhead c (by simp [hc])
      have e1 := ih hp1 hps' hsrc'
      rw [rrStream_cons origin b (u1 ++ x :: v) prev,
        rrStream_cons origin b (u1 ++ v) prev, hdb]
      cases hs : isSkippedRRSIG b with
      | true => simp [hs, e1]
      | false => simp [hs, e1]

/-- C5: for any zone and any supported digest type, inserting or removing
an RRSIG whose type_covered field is ZONEMD (63) leaves the computed
digest bytes unchanged — `zonemd_rrlist_digest` never feeds such a
record to the hash. -/
theorem C5_rrsig_over_zonemd_independence (origin : List (List Nat))
    (l1 l2 : List RR) (sig : RR)
    (h46 : sig.rtype = RRSIG_TYPE) (h63 : my_typecovered sig = ZONEMD_RR_TYPE) :
    flatDigest origin (l1 ++ sig :: l2) = flatDigest origin (l1 ++ l2) := by
  have hsig : isSkippedRRSIG sig = true := by
    unfold isSkippedRRSIG
    rw [h46, h63]
    simp
  obtain ⟨u, v, e1, e2, _⟩ := rrSort_split l1 l2 sig
  unfold flatDigest canonStream
  rw [e1, e2]
  congr 1
  exact rrStream_skip_rrsig origin sig hsig u (e1 ▸ rrSort_pairwise (l1 ++ sig :: l2))
    (by intro p h; cases h)

/-- C5 witness: inserting a concrete RRSIG-over-ZONEMD at the apex of the
one-record zone leaves the digest unchanged. -/
theorem C5_rrsig_over_zonemd_independence_witness :
    sigZ.rtype = RRSIG_TYPE ∧ my_typecovered sigZ = ZONEMD_RR_TYPE ∧
    flatDigest org ([soaC] ++ sigZ :: []) = flatDigest org ([soaC] ++ []) :=
  ⟨by decide, by decide,
   C5_rrsig_over_zonemd_independence org [soaC] [] sigZ (by decide) (by decide)⟩

/-- C6: adding a byte-identical duplicate of a record already present in
the zone does not change the computed digest — after sorting, the
duplicate is adjacent to the original and the canonicalizer skips it. -/
theorem C6_duplicate_idempotence (origin : List (List Nat)) (z : List RR)
    (r : RR) (hr : r ∈ z) :
    flatDigest origin (z ++ [r]) = flatDigest origin z := by
  obtain ⟨u, v, e1, e2, hmem⟩ := rrSort_split z [] r
  simp only [List.append_nil] at e2
  unfold flatDigest canonStream
  have hz : z ++ [r] = z ++ r :: [] := rfl
  rw [hz, e1, e2]
  congr 1
  apply rrStream_skip_dup origin r u (e1 ▸ rrSort_pairwise (z ++ r :: []))
  · intro p h
    cases h
  · exact Or.inr ⟨r, hmem r hr (rrCmp_self r), rrCmp_self r⟩

/-- C6 witness: duplicating a concrete A record leaves the digest of the
two-record zone unchanged. -/
theorem C6_duplicate_idempotence_witness :
    rrA ∈ [soaC, rrA] ∧
    flatDigest org ([soaC, rrA] ++ [rrA]) = flatDigest org [soaC, rrA] :=
  ⟨by decide, C6_duplicate_idempotence org [soaC, rrA] rrA (by decide)⟩

/-! ## Pointwise-replacement congruence, for the self-reference claim -/

theorem keyCmp_rdata_irrel {o oy : List (List Nat)} {t c ttl ty cy tty : Nat}
    {r1 r2 ry : List Nat} (hy : oy ≠ o ∨ ty ≠ t) :
    keyCmp (o, t, c, ttl, r1) (oy, ty, cy, tty, ry) =
      keyCmp (o, t, c, ttl, r2) (oy, ty, cy, tty, ry) ∧
    keyCmp (oy, ty, cy, tty, ry) (o, t, c, ttl, r1) =
      keyCmp (oy, ty, cy, tty, ry) (o, t, c, ttl, r2) := by
  constructor
  · simp only [keyCmp, prodCmp]
    cases hcl : cmpLabels o oy with
    | lt => rfl
    | gt => rfl
    | eq =>
      have hoe : o = oy := (cmpLabels_laws.eq_iff _ _).1 hcl
      have hte : ty ≠ t := by
        rcases hy with hy | hy
        · exact absurd hoe.symm hy
        · exact hy
      cases hct : cmpNat t ty with
      | lt => rfl
      | gt => rfl
      | eq => exact absurd ((cmpNat_laws.eq_iff _ _).1 hct).symm hte
  · simp only [keyCmp, prodCmp]
    cases hcl : cmpLabels oy o with
    | lt => rfl
    | gt => rfl
    | eq =>
      have hoe : oy = o := (cmpLabels_laws.eq_iff _ _).1 hcl
      have hte : ty ≠ t := by
        rcases hy with hy | hy
        · exact absurd hoe hy
        · exact hy
      cases hct : cmpNat ty t with
      | lt => rfl
      | gt => rfl
      | eq => exact absurd ((cmpNat_laws.eq_iff _ _).1 hct) hte

/-- Two records that agree on owner (canonically), type, class and TTL
compare identically against any record that differs from them in owner
or type: the comparison is decided before the rdata is reached. -/
theorem rrCmp_rdata_irrel {a b y : RR}
    (ho : canonLabels a.owner = canonLabels b.owner)
    (ht : a.rtype = b.rtype) (hc : a.rclass = b.rclass) (httl : a.ttl = b.ttl)
    (hy : canonLabels y.owner ≠ canonLabels a.owner ∨ y.rtype ≠ a.rtype) :
    rrCmp a y = rrCmp b y ∧ rrCmp y a = rrCmp y b := by
  have hb : rrKey b = (canonLabels a.owner, a.rtype, a.rclass, a.ttl, rdataWire b) := by
    unfold rrKey
    rw [ho, ht, hc, httl]
  have ha : rrKey a = (canonLabels a.owner, a.rtype, a.rclass, a.ttl, rdataWire a) := rfl
  have hyk : rrKey y =
      (canonLabels y.owner, y.rtype, y.rclass, y.ttl, rdataWire y) := rfl
  unfold rrCmp
  rw [ha, hb, hyk]
  exact keyCmp_rdata_irrel hy


theorem forall2_rrInsert {R : RR → RR → Prop}
    (hR : ∀ a b p q, R a b → R p q → rrCmp a p = rrCmp b q)
    {x y : RR} (hxy : R x y) :
    ∀ {s t : List RR}, List.Forall₂ R s t →
      List.Forall₂ R (rrInsert x s) (rrInsert y t) := by
  intro s t hst
  induction hst with
  | nil => exact List.Forall₂.cons hxy List.Forall₂.nil
  | @cons a b s2 t2 hab hrest ih =>
    have hcmp : rrCmp x a = rrCmp y b := hR x y a b hxy hab
    cases h : rrCmp x a with
    | gt =>
      rw [rrInsert_cons_gt h, rrInsert_cons_gt (hcmp ▸ h)]
      exact List.Forall₂.cons hab ih
    | lt =>
      rw [rrInsert_cons_le (by rw [h]; simp),
        rrInsert_cons_le (by rw [← hcmp, h]; simp)]
      exact List.Forall₂.cons hxy (List.Forall₂.cons hab hrest)
    | eq =>
      rw [rrInsert_cons_le (by rw [h]; simp),
        rrInsert_cons_le (by rw [← hcmp, h]; simp)]
      exact List.Forall₂.cons hxy (List.Forall₂.cons hab hrest)

theorem forall2_rrSort {R : RR → RR → Prop}
    (hR : ∀ a b p q, R a b → R p q → rrCmp a p = rrCmp b q) :
    ∀ {s t : List RR}, List.Forall₂ R s t →
      List.Forall₂ R (rrSort s) (rrSort t) := by
  intro s t hst
  induction hst with
  | nil => exact List.Forall₂.nil
  | cons hab _ ih => exact forall2_rrInsert hR hab ih

/-- Pointwise replacement by related records leaves the emitted stream
unchanged, provided related records compare identically, are skipped
identically, and emit the same bytes. -/
theorem rrStream_congr (origin : List (List Nat)) {R : RR → RR → Prop}
    (hR : ∀ a b p q, R a b → R p q → rrCmp a p = rrCmp b q)
    (hsig : ∀ a b, R a b → isSkippedRRSIG a = isSkippedRRSIG b)
    (hemit : ∀ a b, R a b → emitRR origin a = emitRR origin b) :
    ∀ {s t : List RR}, List.Forall₂ R s t →
      ∀ {prev prev2 : Option RR},
        ((prev = none ∧ prev2 = none) ∨
          (∃ p q, prev = some p ∧ prev2 = some q ∧ R p q)) →
        rrStream origin s prev = rrStream origin t prev2 := by
  intro s t hst
  induction hst with
  | nil => intro prev prev2 _; rfl
  | @cons a b s2 t2 hab hrest ih =>
    intro prev prev2 hpq
    have hd : isDup prev a = isDup prev2 b := by
      rcases hpq with ⟨h1, h2⟩ | ⟨p, q, h1, h2, hR2⟩
      · subst h1
        subst h2
        rfl
      · subst h1
        subst h2
        simp only [isDup]
        rw [hR a b p q hab hR2]
    cases h : isDup prev a with
    | true =>
      rw [rrStream_cons, rrStream_cons, if_pos h, if_pos (hd ▸ h)]
      exact ih hpq
    | false =>
      have h2 : isDup prev2 b = false := hd ▸ h
      rw [rrStream_cons, rrStream_cons, h, h2]
      have hprev2 : ((some a : Option RR) = none ∧ (some b : Option RR) = none) ∨
          (∃ p q, (some a : Option RR) = some p ∧ (some b : Option RR) = some q ∧ R p q) :=
        Or.inr ⟨a, b, rfl, rfl, hab⟩
      have hsab := hsig a b hab
      cases hs : isSkippedRRSIG a with
      | true =>
        have hsb : isSkippedRRSIG b = true := hsab ▸ hs
        simp only [hs, hsb, Bool.false_eq_true, if_false, if_true]
        exact ih hprev2
      | false =>
        have hsb : isSkippedRRSIG b = false := hsab ▸ hs
        simp only [hs, hsb, Bool.false_eq_true, if_false]
        rw [hemit a b hab, ih hprev2]

theorem rd32_be32_append (s : Nat) (rest : List Nat) :
    rd32 (be32 s ++ rest) = s % 2 ^ 32 := by
  unfold rd32 be32
  simp only [List.cons_append, List.nil_append, List.getD_cons_zero,
    List.getD_cons_succ]
  omega

/-- C4 (amended): in a zone whose apex carries no other ZONEMD record,
the computed digest does not depend on the digest bytes stored in the
apex ZONEMD of digest type 1 — rewriting them through
`zonemd_rr_update_digest` (with any bytes, in particular the computed
digest) leaves the flat digest unchanged, because the canonicalizer
hashes a zeroed copy of the correct length.  Hence compute, write back,
compute again yields the same bytes. -/
theorem C4_self_reference_stable (origin : List (List Nat)) (l1 l2 : List RR)
    (zm zm2 : RR) (nb : List Nat)
    (hty : zm.rtype = ZONEMD_RR_TYPE)
    (hap : canonLabels zm.owner = canonLabels origin)
    (hdt : zonemdDigestType zm = 1)
    (hser : rd32 (zonemdBlob zm) < 2 ^ 32)
    (huniq : ∀ y ∈ l1 ++ l2,
      ¬(y.rtype = ZONEMD_RR_TYPE ∧ canonLabels y.owner = canonLabels origin))
    (hupd : zonemd_rr_update_digest zm 1 nb = some zm2) :
    flatDigest origin (l1 ++ zm2 :: l2) = flatDigest origin (l1 ++ zm :: l2) := by
  unfold zonemd_rr_update_digest at hupd
  rw [if_pos hdt] at hupd
  rw [Option.some.injEq] at hupd
  subst hupd
  set s := rd32 (zonemdBlob zm) with hs
  -- facts about the packed record
  have howner : (zonemd_rr_pack zm s 1 nb).owner = zm.owner := rfl
  have htype : (zonemd_rr_pack zm s 1 nb).rtype = zm.rtype := rfl
  have ht2 : zonemdDigestType (zonemd_rr_pack zm s 1 nb) = 1 := rfl
  have hbl2 : zonemdBlob (zonemd_rr_pack zm s 1 nb) = be32 s ++ ([1, 0] ++ nb) := by
    unfold zonemdBlob zonemd_rr_pack
    simp [List.append_assoc]
  have hrd2 : rd32 (zonemdBlob (zonemd_rr_pack zm s 1 nb)) = s := by
    rw [hbl2, rd32_be32_append, Nat.mod_eq_of_lt hser]
  -- equal zeroed copies
  have hzc : zonemdZeroedCopy (zonemd_rr_pack zm s 1 nb) = zonemdZeroedCopy zm := by
    unfold zonemdZeroedCopy
    rw [ht2, hrd2, hdt]
    rfl
  -- the pointwise replacement relation
  have hR : ∀ a b p q : RR,
      ((a = b ∧ ¬(a.rtype = ZONEMD_RR_TYPE ∧ canonLabels a.owner = canonLabels origin)) ∨
        (a = zm ∧ b = zonemd_rr_pack zm s 1 nb)) →
      ((p = q ∧ ¬(p.rtype = ZONEMD_RR_TYPE ∧ canonLabels p.owner = canonLabels origin)) ∨
        (p = zm ∧ q = zonemd_rr_pack zm s 1 nb)) →
      rrCmp a p = rrCmp b q := by
    have hirr : ∀ y : RR,
        ¬(y.rtype = ZONEMD_RR_TYPE ∧ canonLabels y.owner = canonLabels origin) →
        rrCmp zm y = rrCmp (zonemd_rr_pack zm s 1 nb) y ∧
        rrCmp y zm = rrCmp y (zonemd_rr_pack zm s 1 nb) := by
      intro y hy
      have ho : canonLabels zm.owner = canonLabels (zonemd_rr_pack zm s 1 nb).owner := rfl
      have htt : zm.rtype = (zonemd_rr_pack zm s 1 nb).rtype := rfl
      have hcc : zm.rclass = (zonemd_rr_pack zm s 1 nb).rclass := rfl
      have hll : zm.ttl = (zonemd_rr_pack zm s 1 nb).ttl := rfl
      apply rrCmp_rdata_irrel ho htt hcc hll
      by_cases h63 : y.rtype = ZONEMD_RR_TYPE
      · left
        intro hcon
        exact hy ⟨h63, hcon.trans hap⟩
      · right
        rw [hty]
        exact h63
    intro a b p q hab hpq
    rcases hab with ⟨rfl, hac⟩ | ⟨rfl, rfl⟩ <;> rcases hpq with ⟨rfl, hpc⟩ | ⟨rfl, rfl⟩
    · rfl
    · exact (hirr a hac).2
    · exact (hirr p hpc).1
    · rw [rrCmp_self, rrCmp_self]
  have hsigc : ∀ a b : RR,
      ((a = b ∧ ¬(a.rtype = ZONEMD_RR_TYPE ∧ canonLabels a.owner = canonLabels origin)) ∨
        (a = zm ∧ b = zonemd_rr_pack zm s 1 nb)) →
      isSkippedRRSIG a = isSkippedRRSIG b := by
    intro a b hab
    rcases hab with ⟨rfl, _⟩ | ⟨rfl, rfl⟩
    · rfl
    · unfold isSkippedRRSIG
      rw [htype]
      rw [hty]
      rfl
  have hemitc : ∀ a b : RR,
      ((a = b ∧ ¬(a.rtype = ZONEMD_RR_TYPE ∧ canonLabels a.owner = canonLabels origin)) ∨
        (a = zm ∧ b = zonemd_rr_pack zm s 1 nb)) →
      emitRR origin a = emitRR origin b := by
    intro a b hab
    rcases hab with ⟨rfl, _⟩ | ⟨rfl, rfl⟩
    · rfl
    · unfold emitRR
      rw [if_pos ⟨hty, hap⟩, if_pos (by rw [htype, howner]; exact ⟨hty, hap⟩), hzc]
  -- the two zones are pointwise related
  have hfa : List.Forall₂
      (fun a b : RR =>
        (a = b ∧ ¬(a.rtype = ZONEMD_RR_TYPE ∧ canonLabels a.owner = canonLabels origin)) ∨
        (a = zm ∧ b = zonemd_rr_pack zm s 1 nb))
      (l1 ++ zm :: l2) (l1 ++ (zonemd_rr_pack zm s 1 nb) :: l2) := by
    have hmid : List.Forall₂
        (fun a b : RR =>
          (a = b ∧ ¬(a.rtype = ZONEMD_RR_TYPE ∧ canonLabels a.owner = canonLabels origin)) ∨
          (a = zm ∧ b = zonemd_rr_pack zm s 1 nb))
        (zm :: l2) ((zonemd_rr_pack zm s 1 nb) :: l2) := by
      refine List.Forall₂.cons (Or.inr ⟨rfl, rfl⟩) ?_
      rw [List.forall₂_same]
      intro y hy
      exact Or.inl ⟨rfl, huniq y (by simp [hy])⟩
    clear hR hsigc hemitc
    induction l1 with
    | nil => exact hmid
    | cons a l1' ih =>
      simp only [List.cons_append]
      refine List.Forall₂.cons (Or.inl ⟨rfl, huniq a (by simp)⟩) ?_
      exact ih fun y hy => huniq y
        (by simp only [List.cons_append, List.mem_cons]; right; simpa using hy)
  -- conclude through the canonical stream
  unfold flatDigest canonStream
  congr 1
  exact (rrStream_congr origin hR hsigc hemitc (forall2_rrSort hR hfa)
    (Or.inl ⟨rfl, rfl⟩)).symm

/-- C4 witness: on a zone whose only apex ZONEMD is `zmA`, rewriting the
stored digest bytes through `zonemd_rr_update_digest` leaves the flat
digest unchanged. -/
theorem C4_self_reference_stable_witness :
    zonemd_rr_update_digest zmA 1 [9, 9] =
      some ⟨org, 63, 1, 300, [be32 1 ++ [1, 0] ++ [9, 9]]⟩ ∧
    flatDigest org ([soaC] ++ (⟨org, 63, 1, 300, [be32 1 ++ [1, 0] ++ [9, 9]]⟩ : RR) :: []) =
      flatDigest org ([soaC] ++ zmA :: []) :=
  ⟨by decide,
   C4_self_reference_stable org [soaC] [] zmA
     ⟨org, 63, 1, 300, [be32 1 ++ [1, 0] ++ [9, 9]]⟩ [9, 9]
     (by decide) (by decide) (by decide) (by decide) (by decide) (by decide)⟩

/-- C4 counterexample: with a second apex ZONEMD that already stores the
computed digest, compute → write (via `zonemd_rr_update_digest`) →
compute yields different bytes: the write makes the two ZONEMD records
byte-identical, the canonicalizer collapses the pair, and the digest
changes. -/
theorem C4_counterexample :
    zonemd_rr_update_digest zmA 1 (flatDigest org z4c) = some zmB ∧
    flatDigest org [soaC, zmB, zmB] ≠ flatDigest org z4c := by
  constructor
  · decide
  · decide

/-! ## Depth-0 trees are the flat mode -/

theorem treeAdd_depth0 (W : Nat) (acc : List RR) (kids : List (Option ZTree))
    (dg : List Nat) (b : Bool) (r : RR) :
    zonemd_tree_add_rr 0 W (ZTree.node 0 acc kids dg b) r =
      ZTree.node 0 (acc ++ [r]) kids dg true := by
  unfold zonemd_tree_add_rr treeAddGo
  simp

theorem loadTree_depth0_cons (W : Nat) (r : RR) (rs : List RR) :
    loadTree 0 W (r :: rs) = ZTree.node 0 (r :: rs) [] (List.replicate 48 0) true := by
  have step : ∀ (rs2 : List RR) (acc : List RR),
      List.foldl (zonemd_tree_add_rr 0 W)
        (ZTree.node 0 acc [] (List.replicate 48 0) true) rs2 =
        ZTree.node 0 (acc ++ rs2) [] (List.replicate 48 0) true := by
    intro rs2
    induction rs2 with
    | nil => intro acc; simp
    | cons q qs ih =>
      intro acc
      rw [List.foldl_cons, treeAdd_depth0, ih]
      simp
  unfold loadTree freshNode
  rw [List.foldl_cons, treeAdd_depth0, step]
  simp

/-- C1 (amended): with tree depth 0 the root is the single leaf, every
record is routed to it, and the tree-mode root digest is byte-identical
to the flat-mode digest of the same record list, for every fanout.  (For
depth at least 1 the root digest hashes the children's digest bytes and
in general differs from the flat digest; see the counterexample.) -/
theorem C1_tree_flat_depth0 (W : Nat) (origin : List (List Nat))
    (rrs : List RR) (hne : rrs ≠ []) :
    (calcRoot 0 W origin (loadTree 0 W rrs)).2 = flatDigest origin rrs := by
  obtain ⟨r, rs, rfl⟩ := List.exists_cons_of_ne_nil hne
  rw [loadTree_depth0_cons]
  unfold calcRoot calcGo flatDigest
  simp [ZTree.digest, setDigest]

/-- C1 witness: the depth-0 equality at the one-record zone with the
default fanout 13. -/
theorem C1_tree_flat_depth0_witness :
    ([soaC] : List RR) ≠ [] ∧
    (calcRoot 0 13 org (loadTree 0 13 [soaC])).2 = flatDigest org [soaC] :=
  ⟨by decide, C1_tree_flat_depth0 13 org [soaC] (by decide)⟩

/-- C1 counterexample: at depth 1, fanout 1, on the one-record zone, the
tree-mode root digest (the hash of the single leaf's digest bytes)
differs from the flat-mode digest. -/
theorem C1_counterexample :
    (calcRoot 1 1 org (loadTree 1 1 [soaC])).2 ≠ flatDigest org [soaC] := by
  decide

/-- C2 (code evaluated at the failing input): on the zone
{example. SOA; a.example. A; c.example. A} with depth 1 and width 3,
after a full computation and one addition of a TXT at c.example., the
incrementally recomputed root digest differs from the digest of a fresh
tree loaded with the resulting records: the clean children contribute
the stale contents of the parent's scratch buffer instead of their own
digests. -/
theorem C2_incremental_recompute_differs : t2recomputed ≠ t2fresh := by
  decide

/-- C3 (code evaluated at the failing input): after the first full
computation, the apex leaf of the tree is clean, holds the SOA, yet its
digest buffer still contains the calloc zeros — not the hash of its
record list — and invoking the computation on this clean node hands the
caller's buffer back untouched instead of the cached digest. -/
theorem C3_cache_invariant_violated :
    apexLeaf.dirty = false ∧
    apexLeaf.rrlist = [soaC] ∧
    apexLeaf.digest = List.replicate 48 0 ∧
    apexLeaf.digest ≠ sha384 (canonStream org apexLeaf.rrlist) ∧
    (calcGo 1 3 org 2 apexLeaf (List.replicate 48 7)).2 = List.replicate 48 7 := by
  refine ⟨by decide, by decide, by decide, by decide, by decide⟩

/-- C7 (code evaluated at the failing input): on a zone with no apex
ZONEMD, `zonemd_rr_find` returns an empty (non-NULL) list, so the
`NoZonemd` guard never fires: calculate completes as a no-op and verify
returns exit status 0 (success). -/
theorem C7_no_zonemd_not_fatal :
    zonemd_rr_find org [soaC] = [] ∧
    do_calculate org [soaC] = some [soaC] ∧
    do_verify org soaC [soaC] = 0 := by
  refine ⟨by decide, by decide, by decide⟩

/-- C8 counterexample: a zone whose only apex ZONEMD has unsupported
digest type 2 and a matching serial is logged and skipped by verify, and
the process exit status is 0 — not the non-zero status the claim
asserts. -/
theorem C8_counterexample :
    zonemd_rr_find org z8 = [zmT2] ∧
    zonemd_digester (zonemdDigestType zmT2) = none ∧
    rd32 (zonemdBlob zmT2) = soaSerial soaC ∧
    do_verify org soaC z8 = 0 := by
  refine ⟨by decide, by decide, by decide, by decide⟩

/-- C8 (amended): an apex ZONEMD with an unsupported digest type is
skipped without terminating the verify pass and contributes nothing to
the exit status: whenever every apex ZONEMD has a matching serial and is
either unsupported or stores the computed digest, verify returns 0. -/
theorem C8_unsupported_digest_skipped (origin : List (List Nat)) (soa : RR)
    (z : List RR)
    (h : ∀ zm ∈ zonemd_rr_find origin z,
      rd32 (zonemdBlob zm) = soaSerial soa ∧
      (zonemd_digester (zonemdDigestType zm) = none ∨
        (zonemdStoredDigest zm).take 48 = flatDigest origin z)) :
    do_verify origin soa z = 0 := by
  unfold do_verify
  generalize zonemd_rr_find origin z = l at h
  induction l with
  | nil => rfl
  | cons zm l2 ih =>
    obtain ⟨hserial, hdig⟩ := h zm (by simp)
    rw [List.foldl_cons]
    have hstep :
        (if rd32 (zonemdBlob zm) ≠ soaSerial soa then 0 ||| 1 else 0 : Nat) = 0 := by
      rw [if_neg (by simp [hserial])]
    cases hd : zonemd_digester (zonemdDigestType zm) with
    | none =>
      simp only [hd, hstep]
      exact ih fun q hq => h q (by simp [hq])
    | some mdlen =>
      have hm : mdlen = 48 := by
        unfold zonemd_digester at hd
        by_cases ht : zonemdDigestType zm = 1
        · rw [if_pos ht] at hd
          exact (Option.some.injEq _ _ ▸ hd).symm
        · rw [if_neg ht] at hd
          cases hd
      subst hm
      rcases hdig with hdig | hdig
      · rw [hdig] at hd
        cases hd
      · simp only [hd, hstep, hdig]
        rw [if_neg (by simp)]
        exact ih fun q hq => h q (by simp [hq])

/-- C8 witness: the amended statement applied to the concrete zone whose
only apex ZONEMD has unsupported digest type 2. -/
theorem C8_unsupported_digest_skipped_witness :
    (∀ zm ∈ zonemd_rr_find org z8,
      rd32 (zonemdBlob zm) = soaSerial soaC ∧
      (zonemd_digester (zonemdDigestType zm) = none ∨
        (zonemdStoredDigest zm).take 48 = flatDigest org z8)) ∧
    do_verify org soaC z8 = 0 :=
  ⟨by decide, C8_unsupported_digest_skipped org soaC z8 (by decide)⟩

/-- C9 (code evaluated at the failing input): a `del` line of the update
script only increments the deletion counter; the matching record stays
in the store and keeps contributing to the digest (the digest of the
resulting store is not the digest of the zone without the record). -/
theorem C9_del_line_is_noop :
    zonemd_zone_update [soaC, rrA] [UpdateLine.del rrA] = ([soaC, rrA], 0, 1) ∧
    flatDigest org (zonemd_zone_update [soaC, rrA] [UpdateLine.del rrA]).1 ≠
      flatDigest org [soaC] := by
  refine ⟨by decide, by decide⟩

/-- C10: the out-of-zone check runs only while loading the zone file: a
record whose owner is neither the origin nor one of its subdomains is
dropped by `zonemd_read_zone` but inserted unconditionally by an `add`
line of the update script, so the update phase does not preserve the
store invariant. -/
theorem C10_out_of_zone_only_checked_at_load (origin : List (List Nat))
    (soa r : RR) (rrs z : List RR)
    (hsoa : canonLabels soa.owner = canonLabels origin)
    (hout1 : canonLabels r.owner ≠ canonLabels origin)
    (hout2 : ldns_dname_is_subdomain r.owner origin = false) :
    r ∉ zonemd_read_zone origin soa rrs ∧
    r ∈ (zonemd_zone_update z [UpdateLine.add r]).1 := by
  constructor
  · unfold zonemd_read_zone
    intro hr
    rcases List.mem_cons.1 hr with hr | hr
    · exact hout1 (hr ▸ hsoa)
    · obtain ⟨_, hcond⟩ := List.mem_filter.1 hr
      rw [Bool.or_eq_true] at hcond
      rcases hcond with hcond | hcond
      · exact hout1 (of_decide_eq_true hcond)
      · rw [hout2] at hcond
        cases hcond
  · unfold zonemd_zone_update
    simp

/-- C10 witness: the record at `o.` is outside `example.`: skipped by
the loader, inserted by the update phase. -/
theorem C10_out_of_zone_only_checked_at_load_witness :
    canonLabels soaC.owner = canonLabels org ∧
    canonLabels rrOut.owner ≠ canonLabels org ∧
    ldns_dname_is_subdomain rrOut.owner org = false ∧
    rrOut ∉ zonemd_read_zone org soaC [rrA] ∧
    rrOut ∈ (zonemd_zone_update [soaC, rrA] [UpdateLine.add rrOut]).1 := by
  have h := C10_out_of_zone_only_checked_at_load org soaC rrOut [rrA] [soaC, rrA]
    (by decide) (by decide) (by decide)
  exact ⟨by decide, by decide, by decide, h.1, h.2⟩
